import Mathlib

/-
Verification of the Monte-Carlo tree search fragment of the repository
(src/src/montecarlo.cpp).  The fragment implements the UCT algorithm for
Stockfish: a tree of nodes (`UCTInfo`) with edges carrying a move, a prior,
a visit count and action-value statistics, the UCB selection formula, the
greedy `best_move` scan, the do/undo traversal stack, and the logistic
mapping between engine values and [0,1] rewards.

Conventions of the shallow embedding:
* `double` quantities are modelled by exact rationals `ℚ`; where IEEE-754
  non-finite results matter (division by a zero visit count in `UCT::UCB`)
  we use the type `FVal`, which adjoins NaN and the two infinities to `ℚ`.
* The C library `sqrt` is external; it is passed as an explicit function
  parameter `sqrtFn`.  No claim depends on its values.
* The per-node edge array `edges[MAX_SONS]` with live prefix `s->sons` is
  modelled as the list of live edges; `number_of_sons` is its length, which
  `add_prior_to_node` keeps in sync with the array code (it writes at index
  `sons` and increments `sons` together).  `MAX_SONS` is declared in
  montecarlo.h, which is not part of the fragment, so it is kept as an
  explicit parameter; no theorem depends on its value.
* The transcendental reward codec (`value_to_reward` / `reward_to_value`)
  is modelled over `ℝ` with `Real.exp` / `Real.log`, the decimal constants
  read as exact rationals, and C++ `int(double)` truncation toward zero as
  `truncToInt`.
-/

/-- Moves are an opaque 16-bit encoding in the host engine; modelled as `ℕ`. -/
abbrev Move := ℕ

/-- Modelled from the spec: the sentinel "no move" value returned when a node
has no edges (`MOVE_NONE` is declared in types.h, which is not part of the
fragment); the host engine encodes it as 0. -/
def MOVE_NONE : Move := 0

/-- One edge of the UCT tree (struct `Edge` of montecarlo.h, whose fields are
fixed by their uses in montecarlo.cpp): the candidate move, its prior reward,
its visit count, the accumulated action-value, and the derived mean
action-value (the source spells the field `meanAcionValue`). -/
structure Edge where
  move : Move
  prior : ℚ
  visits : ℕ
  actionValue : ℚ
  meanAcionValue : ℚ
  deriving DecidableEq

/-- A value of C++ `double` arithmetic: either a finite value (modelled
exactly as a rational) or one of the IEEE-754 non-finite results produced by
division by zero. -/
inductive FVal where
  | fin : ℚ → FVal
  | pinf : FVal
  | ninf : FVal
  | nan : FVal
  deriving DecidableEq

/-- IEEE-754 division `a / b` for finite `a`, `b`: finite quotient when
`b ≠ 0`; otherwise `0/0` is NaN and `a/0` is an infinity of the sign of `a`. -/
def fdiv (a b : ℚ) : FVal :=
  if b = 0 then
    (if a = 0 then FVal.nan else if 0 < a then FVal.pinf else FVal.ninf)
  else FVal.fin (a / b)

/-- Adding a finite value to a `double`: finite plus finite is finite,
infinities and NaN absorb. -/
def FVal.addFin : FVal → ℚ → FVal
  | FVal.fin q, a => FVal.fin (q + a)
  | FVal.pinf, _ => FVal.pinf
  | FVal.ninf, _ => FVal.ninf
  | FVal.nan, _ => FVal.nan

/-- IEEE-754 strict comparison `a > b`: any comparison with NaN is false. -/
def FVal.fgt : FVal → FVal → Bool
  | FVal.nan, _ => false
  | _, FVal.nan => false
  | FVal.pinf, FVal.pinf => false
  | FVal.pinf, _ => true
  | _, FVal.pinf => false
  | FVal.ninf, _ => false
  | FVal.fin _, FVal.ninf => true
  | FVal.fin a, FVal.fin b => decide (b < a)

/-- The node payload (`UCTInfo` of montecarlo.h, fields fixed by their uses in
montecarlo.cpp): the node's visit count, the count of expanded sons, and the
live edges (see the header comment for the array/list correspondence). -/
structure UCTInfo where
  visits : ℕ
  expandedSons : ℕ
  edges : List Edge
  deriving DecidableEq

/-- Function `number_of_sons(node)` returns `s->sons`, the number of live edges. -/
def number_of_sons (node : UCTInfo) : ℕ := node.edges.length

/-- The fresh edge written by `add_prior_to_node`: the given move and prior,
zero visits, zero accumulated and zero mean action-value. -/
def newEdge (m : Move) (prior : ℚ) : Edge :=
  { move := m, prior := prior, visits := 0, actionValue := 0, meanAcionValue := 0 }

/-- Function `add_prior_to_node(node, m, prior, moveCount)` with assertions disabled
(NDEBUG): if the node has room (`s->sons < MAX_SONS`) the new edge is written
at index `sons` and `sons` is incremented; otherwise a diagnostic is printed
to `cerr` and the node is left unchanged.  The `moveCount` argument of the
source is only read by a debug assertion and is omitted. -/
def add_prior_to_node (MAX_SONS : ℕ) (node : UCTInfo) (m : Move) (prior : ℚ) :
    UCTInfo :=
  if number_of_sons node < MAX_SONS then
    { node with edges := node.edges ++ [newEdge m prior] }
  else node

/-- Function `add_prior_to_node` with assertions enabled: `assert(n < MAX_SONS)` aborts
the process (modelled as `none`) when the node is already full. -/
def add_prior_to_node_assert (MAX_SONS : ℕ) (node : UCTInfo) (m : Move)
    (prior : ℚ) : Option UCTInfo :=
  if number_of_sons node < MAX_SONS then
    some { node with edges := node.edges ++ [newEdge m prior] }
  else none

namespace UCT

/-- Function `UCT::UCB(node, edge, C)`: the code computes
`edge.actionValue / edge.visits + C * edge.prior * sqrt(father->visits) / (1 + edge.visits)`
with no special case for `edge.visits == 0` — the division is performed
unconditionally, so a zero visit count produces a non-finite value.
`fatherVisits` is `get_infos(node)->visits` and `sqrtFn` the external `sqrt`. -/
def UCB (fatherVisits : ℕ) (edge : Edge) (C : ℚ) (sqrtFn : ℕ → ℚ) : FVal :=
  (fdiv edge.actionValue (edge.visits : ℚ)).addFin
    (C * edge.prior * sqrtFn fatherVisits / (1 + (edge.visits : ℚ)))

/-- The finite value of the UCB formula when the edge has been visited:
`Q + C * P * sqrt(N) / (1 + n)` with `Q = actionValue / visits`. -/
def ucbQ (fatherVisits : ℕ) (C : ℚ) (sqrtFn : ℕ → ℚ) (e : Edge) : ℚ :=
  e.actionValue / (e.visits : ℚ) +
    C * e.prior * sqrtFn fatherVisits / (1 + (e.visits : ℚ))

/-- The scan loop of `UCT::best_move`: `bv` is the running `bestValue`
(initially `-100000000.0`), `bm` the running `best` move; an edge replaces the
running best exactly when its UCB score compares strictly greater (IEEE `>`,
so NaN scores never win). -/
def bestMoveGo (fatherVisits : ℕ) (C : ℚ) (sqrtFn : ℕ → ℚ) :
    List Edge → FVal → Move → Move
  | [], _, bm => bm
  | e :: es, bv, bm =>
    if (UCB fatherVisits e C sqrtFn).fgt bv then
      bestMoveGo fatherVisits C sqrtFn es (UCB fatherVisits e C sqrtFn) e.move
    else bestMoveGo fatherVisits C sqrtFn es bv bm

/-- Function `UCT::best_move(node, C)`: linear scan of the node's edges with running
best value initialised to `-100000000.0` and running best move `MOVE_NONE`. -/
def best_move (node : UCTInfo) (C : ℚ) (sqrtFn : ℕ → ℚ) : Move :=
  bestMoveGo node.visits C sqrtFn node.edges (FVal.fin (-100000000)) MOVE_NONE

/-- Reference scan over rational scores, mirroring `bestMoveGo` when every
score is finite: strict improvement replaces the running best. -/
def scanQ (f : Edge → ℚ) : List Edge → ℚ → Move → Move
  | [], _, bm => bm
  | e :: es, bv, bm =>
    if bv < f e then scanQ f es (f e) e.move else scanQ f es bv bm

/-- Function `UCT::backup(node, r)` has an empty body in the source: it performs no
statistics update at all; modelled as the identity on the node state. -/
def backup (node : UCTInfo) (r : ℚ) : UCTInfo := node

end UCT

/-- The search instance's global mutable counters (members of class `UCT`
declared in montecarlo.h, fixed by their uses in montecarlo.cpp):
`doMoveCnt`, `treeSize`, `descentCnt`, `playoutCnt` and the ply counter. -/
structure UCTGlobals where
  doMoveCnt : ℕ
  treeSize : ℕ
  descentCnt : ℕ
  playoutCnt : ℕ
  ply : ℕ
  deriving DecidableEq

namespace UCT

/-- The counter effect of `UCT::create_root(p)`: the source initialises
`doMoveCnt = 0; treeSize = 0; descentCnt = 0; ply = 0` and touches no other
counter (in particular `playoutCnt` keeps its previous value). -/
def create_root (g : UCTGlobals) : UCTGlobals :=
  { doMoveCnt := 0, treeSize := 0, descentCnt := 0,
    playoutCnt := g.playoutCnt, ply := 0 }

/-- Function `UCT::computational_budget()` returns `treeSize < 5`. -/
def computational_budget (g : UCTGlobals) : Bool := g.treeSize < 5

/-- The counter effect of one iteration of the `while` loop of
`UCT::search`: `tree_policy()` increments `descentCnt`, `playout_policy`
increments `playoutCnt`, and `backup` does nothing; no statement of the loop
body modifies `treeSize` or the other counters. -/
def search_iteration (g : UCTGlobals) : UCTGlobals :=
  { g with descentCnt := g.descentCnt + 1, playoutCnt := g.playoutCnt + 1 }

end UCT

/-- The state mutated by `UCT::do_move` / `UCT::undo_move`: the ply counter,
the `currentMove` fields of the traversal stack (`stack[i].currentMove`), and
the externally owned position, of abstract type `Pos` (position.cpp is an
external collaborator). -/
structure DoUndoState (Pos : Type) where
  ply : ℕ
  stackMove : ℕ → Move
  pos : Pos

namespace UCT

/-- Function `UCT::do_move(m)`: records `m` in `stack[ply].currentMove`, applies the
move to the live position through the collaborator's `do_move`, and
increments `ply`.  (`stack[ply].ply` and `stack[ply].contHistory` are
write-only bookkeeping for the move picker and are not modelled.) -/
def do_move {Pos : Type} (posDoMove : Pos → Move → Pos) (m : Move)
    (s : DoUndoState Pos) : DoUndoState Pos :=
  { ply := s.ply + 1,
    stackMove := Function.update s.stackMove s.ply m,
    pos := posDoMove s.pos m }

/-- Function `UCT::undo_move()`: decrements `ply` and takes back
`stack[ply].currentMove` through the collaborator's `undo_move`. -/
def undo_move {Pos : Type} (posUndoMove : Pos → Move → Pos)
    (s : DoUndoState Pos) : DoUndoState Pos :=
  { ply := s.ply - 1,
    stackMove := s.stackMove,
    pos := posUndoMove s.pos (s.stackMove (s.ply - 1)) }

/-- Descend along a list of moves by repeated `UCT::do_move`. -/
def doSeq {Pos : Type} (posDoMove : Pos → Move → Pos) :
    List Move → DoUndoState Pos → DoUndoState Pos
  | [], s => s
  | m :: ms, s => doSeq posDoMove ms (do_move posDoMove m s)

/-- Backtrack by `n` repeated `UCT::undo_move`. -/
def undoN {Pos : Type} (posUndoMove : Pos → Move → Pos) :
    ℕ → DoUndoState Pos → DoUndoState Pos
  | 0, s => s
  | n + 1, s => undo_move posUndoMove (undoN posUndoMove n s)

end UCT

/-- Modelled from the spec: the comparator `ComparePrior` (declared in
montecarlo.h, which is not part of the fragment) orders edges by descending
prior: `ComparePrior a b` holds when `a` must come before `b`, i.e. when
`a.prior > b.prior`. -/
def ComparePrior (a b : Edge) : Prop := b.prior < a.prior

instance : DecidableRel ComparePrior :=
  fun a b => decidable_of_iff (b.prior < a.prior) Iff.rfl

/-- The postcondition of `std::sort(edges, edges + n, ComparePrior)`: the
output is a permutation of the input that is sorted with respect to the
comparator (for any two elements in output order, the later one does not
compare before the earlier one).  `std::sort` guarantees nothing more; in
particular it is not stable. -/
def sortSpec (input output : List Edge) : Prop :=
  input.Perm output ∧ output.Pairwise (fun a b => ¬ ComparePrior b a)

/-- The node being expanded before any edge is added: `generate_moves` is
called on a freshly reached node, whose storage was zero-initialised. -/
def emptyNode : UCTInfo := { visits := 0, expandedSons := 0, edges := [] }

namespace UCT

/-- The edge-adding loop of `UCT::generate_moves`: each legal candidate move
with its computed prior is appended through `add_prior_to_node`, in
generation order. -/
def addAll (MAX_SONS : ℕ) (node : UCTInfo) : List (Move × ℚ) → UCTInfo
  | [] => node
  | (m, p) :: rest => addAll MAX_SONS (add_prior_to_node MAX_SONS node m p) rest

/-- The possible results of `UCT::generate_moves` on a fresh node, given the
candidate moves and their priors: the edges added in generation order are
sorted by `std::sort` with `ComparePrior` (any permutation satisfying the
sort's postcondition is a possible outcome), then the node is marked expanded
(`visits = 1`, `expandedSons = 0`). -/
def generate_moves_result (MAX_SONS : ℕ) (cands : List (Move × ℚ))
    (out : UCTInfo) : Prop :=
  ∃ l, sortSpec (addAll MAX_SONS emptyNode cands).edges l ∧
    out = { visits := 1, expandedSons := 0, edges := l }

end UCT

noncomputable section

namespace UCT

/-- The constant `k` of `UCT::value_to_reward`. -/
def kLogistic : ℝ := -0.00183102048111

/-- The constant `g = 1/k` of `UCT::reward_to_value`. -/
def gLogistic : ℝ := 546.14353597715121

/-- Modelled from the spec: the fixed "known win" sentinel score returned by
`reward_to_value` in the saturated ranges (`VALUE_KNOWN_WIN` is declared in
types.h, which is not part of the fragment; the host engine uses 10000).  No
theorem depends on its value: the round-trip theorem avoids the saturation
branches. -/
def VALUE_KNOWN_WIN : ℤ := 10000

/-- Function `UCT::value_to_reward(v) = 1 / (1 + exp(k * v))`. -/
def value_to_reward (v : ℤ) : ℝ :=
  1 / (1 + Real.exp (kLogistic * (v : ℝ)))

/-- C++ `int(double)`: truncation toward zero. -/
def truncToInt (x : ℝ) : ℤ := if 0 ≤ x then ⌊x⌋ else ⌈x⌉

/-- Function `UCT::reward_to_value(r)`: saturates to `±VALUE_KNOWN_WIN` outside
`[0.01, 0.99]`, otherwise computes `g * log(r / (1 - r))` truncated to int. -/
def reward_to_value (r : ℝ) : ℤ :=
  if 0.99 < r then VALUE_KNOWN_WIN
  else if r < 0.01 then -VALUE_KNOWN_WIN
  else truncToInt (gLogistic * Real.log (r / (1 - r)))

end UCT

end

/-- A sample node that is full when `MAX_SONS = 2`. -/
def sampleFullNode : UCTInfo :=
  { visits := 1, expandedSons := 0, edges := [newEdge 1 (1/2), newEdge 2 (1/4)] }

/-- A sample freshly expanded node with one unvisited edge, as produced for a
root with a single legal move. -/
def sampleLeafNode : UCTInfo :=
  { visits := 1, expandedSons := 0, edges := [newEdge 1 (1/2)] }

/-- A sample visited edge for evaluating the UCB formula. -/
def sampleVisitedEdge : Edge :=
  { move := 1, prior := 1/2, visits := 2, actionValue := 3/2, meanAcionValue := 3/4 }

/-- The three candidate moves of the spec's expansion example, with priors
0.9, 0.1, 0.5 in generation order. -/
def c5cands : List (Move × ℚ) := [(11, 9/10), (12, 1/10), (13, 1/2)]

/-- The spec's expected edge order after expansion: priors 0.9, 0.5, 0.1. -/
def c5sorted : List Edge :=
  [newEdge 11 (9/10), newEdge 13 (1/2), newEdge 12 (1/10)]

/-- A concrete game-state collaborator for witnessing the do/undo contract:
the position is its move history, `do_move` pushes, `undo_move` pops. -/
def listDoMove (p : List Move) (m : Move) : List Move := m :: p

/-- The take-back of `listDoMove`. -/
def listUndoMove (p : List Move) (m : Move) : List Move := p.tail

/-- A concrete initial traversal state at ply 0. -/
def initialDoUndo : DoUndoState (List Move) :=
  { ply := 0, stackMove := fun _ => 0, pos := [] }

/-- A visited edge whose mean action-value lies below the `-100000000.0`
initialisation of `bestValue` in `UCT::best_move`. -/
def sampleNegEdge : Edge :=
  { move := 5, prior := 0, visits := 1, actionValue := -200000000,
    meanAcionValue := -200000000 }

/-- A node with `sampleNegEdge` as its only edge. -/
def sampleNegNode : UCTInfo :=
  { visits := 1, expandedSons := 0, edges := [sampleNegEdge] }

/-- A visited edge with mean action-value 1/2. -/
def sampleEdgeA : Edge :=
  { move := 3, prior := 1/2, visits := 1, actionValue := 1/2,
    meanAcionValue := 1/2 }

/-- A visited edge with mean action-value 3/4. -/
def sampleEdgeB : Edge :=
  { move := 4, prior := 1/4, visits := 1, actionValue := 3/4,
    meanAcionValue := 3/4 }

/-- A node with two visited edges, the second carrying the larger mean
action-value. -/
def sampleTwoNode : UCTInfo :=
  { visits := 2, expandedSons := 0, edges := [sampleEdgeA, sampleEdgeB] }

/- ------------------------------------------------------------------ -/
/- Theorems                                                            -/
/- ------------------------------------------------------------------ -/

/-- Helper: no statement of the search loop body ever modifies `treeSize`. -/
theorem search_iteration_treeSize (s : UCTGlobals) (k : ℕ) :
    (UCT.search_iteration^[k] s).treeSize = s.treeSize := by
  induction k with
  | zero => rfl
  | succ n ih =>
    rw [Function.iterate_succ_apply']
    simpa [UCT.search_iteration] using ih

/-- C1, counterexample: on an edge with zero visits (a fresh edge, whose
accumulated action-value is zero), `UCT::UCB` performs the division
`actionValue / visits = 0 / 0` anyway, producing NaN — not the value
`0 + C * P * sqrt(N) / (1 + 0)` that the claim's zero-visit definition of Q
would give (here `C = 1`, `P = 1/2`, `sqrt(N) = 1`, so the claim's value is
`1/2`). -/
theorem ucb_zero_visits_counterexample :
    UCT.UCB 1 (newEdge 1 (1/2)) 1 (fun _ => 1) = FVal.nan ∧
    FVal.nan ≠ FVal.fin (0 + 1 * (1/2) * 1 / (1 + 0)) := by
  constructor
  · decide
  · decide

/-- C1 (amended): `UCT::UCB(node, edge, C)` equals
`Q + C * P * sqrt(N) / (1 + n)` with `Q = actionValue / n` whenever the
edge's visit count `n` is positive; when `n = 0` the code performs the
division anyway — for a fresh edge (`actionValue = 0`) the result is NaN, so
Q is not defined as 0 and the computation does divide by zero. -/
theorem ucb_formula (fatherVisits : ℕ) (e : Edge) (C : ℚ) (sqrtFn : ℕ → ℚ) :
    (0 < e.visits →
      UCT.UCB fatherVisits e C sqrtFn =
        FVal.fin (UCT.ucbQ fatherVisits C sqrtFn e)) ∧
    (e.visits = 0 → e.actionValue = 0 →
      UCT.UCB fatherVisits e C sqrtFn = FVal.nan) := by
  constructor
  · intro h
    have hv : ((e.visits : ℚ)) ≠ 0 := by
      exact_mod_cast Nat.pos_iff_ne_zero.mp h
    simp [UCT.UCB, UCT.ucbQ, fdiv, hv, FVal.addFin]
  · intro h0 ha
    simp [UCT.UCB, fdiv, h0, ha, FVal.addFin]

/-- Witness for `ucb_formula` at concrete inputs: a visited edge gives the
finite UCB value, a fresh unvisited edge gives NaN. -/
theorem ucb_formula_witness :
    (0 < sampleVisitedEdge.visits ∧
      UCT.UCB 3 sampleVisitedEdge 1 (fun _ => 1) =
        FVal.fin (UCT.ucbQ 3 1 (fun _ => 1) sampleVisitedEdge)) ∧
    ((newEdge 2 (1/2)).visits = 0 ∧ (newEdge 2 (1/2)).actionValue = 0 ∧
      UCT.UCB 3 (newEdge 2 (1/2)) 1 (fun _ => 1) = FVal.nan) :=
  ⟨⟨by decide, (ucb_formula 3 sampleVisitedEdge 1 (fun _ => 1)).1 (by decide)⟩,
   ⟨by decide, by decide,
    (ucb_formula 3 (newEdge 2 (1/2)) 1 (fun _ => 1)).2 (by decide) (by decide)⟩⟩

/-- C2: the loop guard of `UCT::search` never becomes false.  `create_root`
sets `treeSize = 0`, `computational_budget()` is `treeSize < 5`, and no
statement of the loop body (`tree_policy`, `playout_policy`, the empty
`backup`) modifies `treeSize`; hence after every number of iterations the
budget predicate is still true and the `while` loop of `UCT::search` never
exits — `search` does not terminate and never reaches
`best_move(root, 0.0)`. -/
theorem search_loop_never_exits (g : UCTGlobals) (k : ℕ) :
    UCT.computational_budget (UCT.search_iteration^[k] (UCT.create_root g)) =
      true := by
  simp [UCT.computational_budget, search_iteration_treeSize, UCT.create_root]

/-- C3: `UCT::backup` has an empty body.  On a node with one traversed edge
(zero visits, zero accumulated action-value) and reward `r = 3/4`, the call
changes nothing: the edge's visit count stays 0 instead of being incremented
and its accumulated action-value stays 0 instead of accumulating the reward
(`3/4 ≠ 0`), so no reward — flipped or not — is ever propagated. -/
theorem backup_updates_nothing :
    UCT.backup sampleLeafNode (3/4) = sampleLeafNode ∧
    (UCT.backup sampleLeafNode (3/4)).edges.map Edge.visits = [0] ∧
    (UCT.backup sampleLeafNode (3/4)).edges.map Edge.actionValue = [0] ∧
    ((3 : ℚ)/4) ≠ 0 := by
  refine ⟨rfl, by decide, by decide, by norm_num⟩

/-- C6, counterexample: with assertions enabled, `add_prior_to_node` on a
node that already holds `MAX_SONS` edges hits `assert(n < MAX_SONS)` and
aborts the process (modelled as `none`) instead of recovering. -/
theorem add_prior_assert_aborts_when_full :
    add_prior_to_node_assert 2 sampleFullNode 3 (1/8) = none := by
  decide

/-- C6 (amended): in NDEBUG builds (assertions disabled) a call to
`add_prior_to_node` on a node whose edge list already holds `MAX_SONS` edges
takes the overflow branch (which prints a diagnostic to `cerr`), leaves the
node's edge list and edge count unchanged, and returns normally, so the
search continues with a degraded branch set; with assertions enabled,
however, `assert(n < MAX_SONS)` aborts first. -/
theorem add_prior_full_node_unchanged (MAX_SONS : ℕ) (node : UCTInfo)
    (m : Move) (prior : ℚ) (h : MAX_SONS ≤ number_of_sons node) :
    add_prior_to_node MAX_SONS node m prior = node := by
  unfold add_prior_to_node
  rw [if_neg (by omega)]

/-- Witness for `add_prior_full_node_unchanged`: a node with 2 edges and
`MAX_SONS = 2` is left unchanged. -/
theorem add_prior_full_node_unchanged_witness :
    2 ≤ number_of_sons sampleFullNode ∧
    add_prior_to_node 2 sampleFullNode 3 (1/8) = sampleFullNode :=
  ⟨by decide, add_prior_full_node_unchanged 2 sampleFullNode 3 (1/8) (by decide)⟩

/-- C9: `UCT::create_root` initialises `doMoveCnt`, `treeSize`, `descentCnt`
and `ply` to zero but does not touch `playoutCnt`: starting from counters
`(3, 4, 5, 7, 2)` it produces `(0, 0, 0, 7, 0)` — the playout count keeps its
previous value 7 instead of being reset to zero. -/
theorem create_root_misses_playoutCnt :
    UCT.create_root
        { doMoveCnt := 3, treeSize := 4, descentCnt := 5, playoutCnt := 7,
          ply := 2 } =
      { doMoveCnt := 0, treeSize := 0, descentCnt := 0, playoutCnt := 7,
        ply := 0 } ∧
    (7 : ℕ) ≠ 0 := by
  refine ⟨rfl, by decide⟩

/-- C10: on a node with room (`sons < MAX_SONS`), `add_prior_to_node` appends
exactly one new edge carrying the given move and prior with zero visits, zero
accumulated action-value and zero mean action-value, increments the son count
by exactly one, and leaves the previously stored edges and the node's other
fields unchanged. -/
theorem add_prior_appends_new_edge (MAX_SONS : ℕ) (node : UCTInfo) (m : Move)
    (prior : ℚ) (h : number_of_sons node < MAX_SONS) :
    add_prior_to_node MAX_SONS node m prior =
      { visits := node.visits, expandedSons := node.expandedSons,
        edges := node.edges ++ [newEdge m prior] } ∧
    number_of_sons (add_prior_to_node MAX_SONS node m prior) =
      number_of_sons node + 1 := by
  have e1 : add_prior_to_node MAX_SONS node m prior =
      { visits := node.visits, expandedSons := node.expandedSons,
        edges := node.edges ++ [newEdge m prior] } := by
    unfold add_prior_to_node
    rw [if_pos h]
  refine ⟨e1, ?_⟩
  rw [e1]
  simp [number_of_sons]

/-- Witness for `add_prior_appends_new_edge`: adding to the empty node with
`MAX_SONS = 8` produces exactly one fresh edge. -/
theorem add_prior_appends_new_edge_witness :
    number_of_sons emptyNode < 8 ∧
    add_prior_to_node 8 emptyNode 5 (1/2) =
      { visits := emptyNode.visits, expandedSons := emptyNode.expandedSons,
        edges := emptyNode.edges ++ [newEdge 5 (1/2)] } :=
  ⟨by decide, (add_prior_appends_new_edge 8 emptyNode 5 (1/2) (by decide)).1⟩

/-- Helper: two lists of edges that are permutations of each other, both
sorted for the `std::sort` postcondition, are equal provided the first has
pairwise distinct priors. -/
theorem sorted_perm_eq_of_distinct :
    ∀ (l₁ l₂ : List Edge), l₁.Perm l₂ →
      l₁.Pairwise (fun a b => ¬ ComparePrior b a) →
      l₂.Pairwise (fun a b => ¬ ComparePrior b a) →
      l₁.Pairwise (fun a b => a.prior ≠ b.prior) →
      l₁ = l₂ := by
  intro l₁
  induction l₁ with
  | nil =>
    intro l₂ hp _ _ _
    exact (hp.nil_eq).symm ▸ rfl
  | cons x t₁ ih =>
    intro l₂ hp s₁ s₂ hd
    cases l₂ with
    | nil => exact absurd hp.symm.nil_eq (by simp)
    | cons y t₂ =>
      have hxy : x = y := by
        by_contra hne
        have hx2 : x ∈ t₂ := by
          have := hp.subset (List.mem_cons_self x t₁)
          rcases List.mem_cons.mp this with h | h
          · exact absurd h hne
          · exact h
        have hy1 : y ∈ t₁ := by
          have := hp.symm.subset (List.mem_cons_self y t₂)
          rcases List.mem_cons.mp this with h | h
          · exact absurd h.symm hne
          · exact h
        have h1 : x.prior ≤ y.prior := by
          have := (List.pairwise_cons.mp s₂).1 x hx2
          simpa [ComparePrior, not_lt] using this
        have h2 : y.prior ≤ x.prior := by
          have := (List.pairwise_cons.mp s₁).1 y hy1
          simpa [ComparePrior, not_lt] using this
        have := (List.pairwise_cons.mp hd).1 y hy1
        exact this (le_antisymm h1 h2)
      subst hxy
      have htp : t₁.Perm t₂ := hp.cons_inv
      have := ih t₂ htp (List.pairwise_cons.mp s₁).2
        (List.pairwise_cons.mp s₂).2 (List.pairwise_cons.mp hd).2
      rw [this]

/-- C5, counterexample: `std::sort` is not a stable sort, so for two
candidate moves generated in order 1, 2 with equal priors 1/2, the edge order
[move 2, move 1] also satisfies the sort's postcondition — the code admits an
expansion result in which edges with equal priors do not keep their
generation order. -/
theorem generate_moves_not_stable_counterexample :
    UCT.generate_moves_result 64 [(1, 1/2), (2, 1/2)]
      { visits := 1, expandedSons := 0,
        edges := [newEdge 2 (1/2), newEdge 1 (1/2)] } ∧
    [newEdge 2 (1/2), newEdge 1 (1/2)].map Edge.move ≠ [1, 2] := by
  constructor
  · refine ⟨[newEdge 2 (1/2), newEdge 1 (1/2)], ⟨?_, ?_⟩, rfl⟩
    · have hgen : (UCT.addAll 64 emptyNode [(1, 1/2), (2, 1/2)]).edges =
          [newEdge 1 (1/2), newEdge 2 (1/2)] := by
        simp [UCT.addAll, add_prior_to_node, number_of_sons, emptyNode]
      rw [hgen]
      exact List.Perm.swap (newEdge 2 (1/2)) (newEdge 1 (1/2)) []
    · simp [List.pairwise_cons, ComparePrior, newEdge]
  · simp [newEdge]

/-- C5 (amended): after the first expansion pass on a node whose three
candidate moves were generated with the distinct priors 0.9, 0.1, 0.5, any
result admitted by `UCT::generate_moves` has its edges sorted by descending
prior, i.e. ordered [0.9, 0.5, 0.1], and the node is marked expanded
(`visits = 1`, `expandedSons = 0`).  For distinct priors the sorted order is
unique, but `std::sort` gives no stability guarantee, so the order of edges
with equal priors is unspecified. -/
theorem generate_moves_sorts_by_descending_prior (MAX_SONS : ℕ)
    (h3 : 3 ≤ MAX_SONS) (out : UCTInfo)
    (h : UCT.generate_moves_result MAX_SONS c5cands out) :
    out.edges = c5sorted ∧ out.visits = 1 ∧ out.expandedSons = 0 := by
  obtain ⟨l, ⟨hperm, hsort⟩, hout⟩ := h
  have h0 : (0 : ℕ) < MAX_SONS := by omega
  have h1 : (1 : ℕ) < MAX_SONS := by omega
  have h2 : (2 : ℕ) < MAX_SONS := by omega
  have hadd : (UCT.addAll MAX_SONS emptyNode c5cands).edges =
      [newEdge 11 (9/10), newEdge 12 (1/10), newEdge 13 (1/2)] := by
    simp [c5cands, UCT.addAll, add_prior_to_node, number_of_sons, emptyNode,
      h0, h1, h2]
  rw [hadd] at hperm
  have hgs : ([newEdge 11 (9/10), newEdge 12 (1/10), newEdge 13 (1/2)] :
      List Edge).Perm c5sorted := by
    refine List.Perm.cons (newEdge 11 (9/10)) ?_
    exact List.Perm.swap (newEdge 13 (1/2)) (newEdge 12 (1/10)) []
  have hlp : l.Perm c5sorted := hperm.symm.trans hgs
  have hdistinct : c5sorted.Pairwise (fun a b => a.prior ≠ b.prior) := by
    simp [c5sorted, List.pairwise_cons, newEdge]
    norm_num
  have hsorted2 : c5sorted.Pairwise (fun a b => ¬ ComparePrior b a) := by
    simp [c5sorted, List.pairwise_cons, ComparePrior, newEdge]
    norm_num
  have hl : c5sorted = l :=
    sorted_perm_eq_of_distinct c5sorted l hlp.symm hsorted2 hsort hdistinct
  subst hout
  exact ⟨hl.symm, rfl, rfl⟩

/-- Witness for `generate_moves_sorts_by_descending_prior`: with
`MAX_SONS = 64` the sorted outcome itself is an admissible result of
`generate_moves` on the example candidates, and the theorem applies to it. -/
theorem generate_moves_sorts_witness :
    (3 : ℕ) ≤ 64 ∧
    UCT.generate_moves_result 64 c5cands
      { visits := 1, expandedSons := 0, edges := c5sorted } ∧
    ({ visits := 1, expandedSons := 0, edges := c5sorted } : UCTInfo).edges =
      c5sorted := by
  have hres : UCT.generate_moves_result 64 c5cands
      { visits := 1, expandedSons := 0, edges := c5sorted } := by
    refine ⟨c5sorted, ⟨?_, ?_⟩, rfl⟩
    · have hgen : (UCT.addAll 64 emptyNode c5cands).edges =
          [newEdge 11 (9/10), newEdge 12 (1/10), newEdge 13 (1/2)] := by
        simp [c5cands, UCT.addAll, add_prior_to_node, number_of_sons,
          emptyNode]
      rw [hgen]
      refine List.Perm.cons (newEdge 11 (9/10)) ?_
      exact List.Perm.swap (newEdge 13 (1/2)) (newEdge 12 (1/10)) []
    · simp [c5sorted, List.pairwise_cons, ComparePrior, newEdge]
      norm_num
  refine ⟨by norm_num, hres, ?_⟩
  exact (generate_moves_sorts_by_descending_prior 64 (by norm_num)
    { visits := 1, expandedSons := 0, edges := c5sorted } hres).1

/-- Helper: the strengthened do/undo induction — after descending along any
move list and backtracking the same number of plies, the ply counter and the
position are restored, and the stack entries below the starting ply are
untouched. -/
theorem doSeq_undoN_aux {Pos : Type} (posDoMove : Pos → Move → Pos)
    (posUndoMove : Pos → Move → Pos)
    (hinv : ∀ p m, posUndoMove (posDoMove p m) m = p) :
    ∀ (ms : List Move) (s : DoUndoState Pos),
      (UCT.undoN posUndoMove ms.length (UCT.doSeq posDoMove ms s)).ply =
        s.ply ∧
      (UCT.undoN posUndoMove ms.length (UCT.doSeq posDoMove ms s)).pos =
        s.pos ∧
      ∀ j < s.ply,
        (UCT.undoN posUndoMove ms.length
          (UCT.doSeq posDoMove ms s)).stackMove j = s.stackMove j := by
  intro ms
  induction ms with
  | nil => exact fun s => ⟨rfl, rfl, fun j _ => rfl⟩
  | cons m ms ih =>
    intro s
    obtain ⟨hply, hpos, hstk⟩ := ih (UCT.do_move posDoMove m s)
    have hply' : (UCT.do_move posDoMove m s).ply = s.ply + 1 := rfl
    rw [hply'] at hply hstk
    have hstep :
        UCT.undoN posUndoMove (m :: ms).length
            (UCT.doSeq posDoMove (m :: ms) s) =
          UCT.undo_move posUndoMove
            (UCT.undoN posUndoMove ms.length
              (UCT.doSeq posDoMove ms (UCT.do_move posDoMove m s))) := rfl
    rw [hstep]
    set u := UCT.undoN posUndoMove ms.length
      (UCT.doSeq posDoMove ms (UCT.do_move posDoMove m s)) with hu
    have hm : u.stackMove s.ply = m := by
      have := hstk s.ply (Nat.lt_succ_self s.ply)
      rw [this]
      exact Function.update_same s.ply m s.stackMove
    refine ⟨?_, ?_, ?_⟩
    · show u.ply - 1 = s.ply
      rw [hply]
      omega
    · show posUndoMove u.pos (u.stackMove (u.ply - 1)) = s.pos
      rw [hply]
      simp only [Nat.add_sub_cancel]
      rw [hm, hpos]
      have : (UCT.do_move posDoMove m s).pos = posDoMove s.pos m := rfl
      rw [this]
      exact hinv s.pos m
    · intro j hj
      show u.stackMove j = s.stackMove j
      have := hstk j (Nat.lt_succ_of_lt hj)
      rw [this]
      exact Function.update_noteq (Nat.ne_of_lt hj) m s.stackMove

/-- C7: provided the game-state collaborator's `undo_move` is the exact
inverse of its `do_move` (the contract the spec assigns to the external rules
engine), descending along any list of legal moves with `UCT::do_move` and
then calling `UCT::undo_move` once per ply restores the ply counter and the
underlying game state exactly to their pre-sequence values; the single
do/undo pair is the case of a one-move list. -/
theorem do_undo_roundtrip {Pos : Type} (posDoMove : Pos → Move → Pos)
    (posUndoMove : Pos → Move → Pos)
    (hinv : ∀ p m, posUndoMove (posDoMove p m) m = p) (ms : List Move)
    (s : DoUndoState Pos) :
    (UCT.undoN posUndoMove ms.length (UCT.doSeq posDoMove ms s)).ply =
      s.ply ∧
    (UCT.undoN posUndoMove ms.length (UCT.doSeq posDoMove ms s)).pos =
      s.pos :=
  ⟨(doSeq_undoN_aux posDoMove posUndoMove hinv ms s).1,
   (doSeq_undoN_aux posDoMove posUndoMove hinv ms s).2.1⟩

/-- Witness for `do_undo_roundtrip`: the history-list collaborator satisfies
the inverse contract, and a two-ply descent followed by two undos restores
ply 0 and the empty history. -/
theorem do_undo_roundtrip_witness :
    (UCT.undoN listUndoMove ([4, 7] : List Move).length
        (UCT.doSeq listDoMove [4, 7] initialDoUndo)).ply =
      initialDoUndo.ply ∧
    (UCT.undoN listUndoMove ([4, 7] : List Move).length
        (UCT.doSeq listDoMove [4, 7] initialDoUndo)).pos =
      initialDoUndo.pos :=
  do_undo_roundtrip listDoMove listUndoMove (fun _ _ => rfl) [4, 7]
    initialDoUndo

/-- Helper: on an edge with a positive visit count `UCT::UCB` is the finite
rational `ucbQ`. -/
theorem ucb_fin_of_pos_visits (N : ℕ) (e : Edge) (C : ℚ) (sq : ℕ → ℚ)
    (h : 0 < e.visits) : UCT.UCB N e C sq = FVal.fin (UCT.ucbQ N C sq e) := by
  have hv : ((e.visits : ℚ)) ≠ 0 := by
    exact_mod_cast Nat.pos_iff_ne_zero.mp h
  simp [UCT.UCB, UCT.ucbQ, fdiv, hv, FVal.addFin]

/-- Helper: the scan keeps the running best when no score strictly exceeds
it. -/
theorem scanQ_stays (f : Edge → ℚ) :
    ∀ (l : List Edge) (bv : ℚ) (bm : Move), (∀ e ∈ l, f e ≤ bv) →
      UCT.scanQ f l bv bm = bm := by
  intro l
  induction l with
  | nil => intro bv bm _; rfl
  | cons e es ih =>
    intro bv bm h
    have he : ¬ bv < f e := not_lt.mpr (h e (List.mem_cons_self e es))
    simp only [UCT.scanQ, if_neg he]
    exact ih bv bm (fun x hx => h x (List.mem_cons_of_mem e hx))

/-- Helper: when some score strictly exceeds the running best, the scan
returns the move of the first edge attaining the maximum score. -/
theorem scanQ_argmax (f : Edge → ℚ) :
    ∀ (l : List Edge) (bv : ℚ) (bm : Move), (∃ e ∈ l, bv < f e) →
      ∃ i : Fin l.length,
        UCT.scanQ f l bv bm = (l.get i).move ∧
        bv < f (l.get i) ∧
        (∀ j : Fin l.length, f (l.get j) ≤ f (l.get i)) ∧
        (∀ j : Fin l.length, (j : ℕ) < (i : ℕ) → f (l.get j) < f (l.get i)) := by
  intro l
  induction l with
  | nil =>
    intro bv bm h
    simp at h
  | cons e es ih =>
    intro bv bm h
    by_cases hbe : bv < f e
    · by_cases hes : ∃ x ∈ es, f e < f x
      · obtain ⟨i', h1, h2, h3, h4⟩ := ih (f e) e.move hes
        refine ⟨i'.succ, ?_, ?_, ?_, ?_⟩
        · simpa only [UCT.scanQ, if_pos hbe] using h1
        · exact lt_trans hbe h2
        · intro j
          induction j using Fin.cases with
          | zero => exact le_of_lt h2
          | succ jj => exact h3 jj
        · intro j hj
          induction j using Fin.cases with
          | zero => exact h2
          | succ jj =>
            refine h4 jj ?_
            simpa using hj
      · push_neg at hes
        refine ⟨⟨0, by simp⟩, ?_, hbe, ?_, ?_⟩
        · simp only [UCT.scanQ, if_pos hbe]
          exact scanQ_stays f es (f e) e.move hes
        · intro j
          induction j using Fin.cases with
          | zero => exact le_refl _
          | succ jj => exact hes (es.get jj) (es.get_mem jj.1 jj.2)
        · intro j hj
          exact absurd hj (by simp)
    · obtain ⟨x, hx, hbx⟩ := h
      have hxes : x ∈ es := by
        rcases List.mem_cons.mp hx with h' | h'
        · exact absurd (h' ▸ hbx) hbe
        · exact h'
      obtain ⟨i', h1, h2, h3, h4⟩ := ih bv bm ⟨x, hxes, hbx⟩
      have hefle : f e ≤ f (es.get i') := le_trans (not_lt.mp hbe) (le_of_lt h2)
      refine ⟨i'.succ, ?_, h2, ?_, ?_⟩
      · simpa only [UCT.scanQ, if_neg hbe] using h1
      · intro j
        induction j using Fin.cases with
        | zero => exact hefle
        | succ jj => exact h3 jj
      · intro j hj
        induction j using Fin.cases with
        | zero => exact lt_of_le_of_lt (not_lt.mp hbe) h2
        | succ jj =>
          refine h4 jj ?_
          simpa using hj

/-- Helper: when every edge has a positive visit count, the `best_move` scan
over IEEE doubles coincides with the rational scan of the `ucbQ` scores. -/
theorem bestMoveGo_eq_scanQ (N : ℕ) (C : ℚ) (sq : ℕ → ℚ) :
    ∀ (l : List Edge) (bv : ℚ) (bm : Move), (∀ e ∈ l, 0 < e.visits) →
      UCT.bestMoveGo N C sq l (FVal.fin bv) bm =
        UCT.scanQ (UCT.ucbQ N C sq) l bv bm := by
  intro l
  induction l with
  | nil => intro bv bm _; rfl
  | cons e es ih =>
    intro bv bm h
    have he : 0 < e.visits := h e (List.mem_cons_self e es)
    have hrest : ∀ x ∈ es, 0 < x.visits :=
      fun x hx => h x (List.mem_cons_of_mem e hx)
    have hfin : UCT.UCB N e C sq = FVal.fin (UCT.ucbQ N C sq e) :=
      ucb_fin_of_pos_visits N e C sq he
    simp only [UCT.bestMoveGo, UCT.scanQ, hfin, FVal.fgt, decide_eq_true_eq]
    by_cases hlt : bv < UCT.ucbQ N C sq e
    · rw [if_pos hlt, if_pos hlt]
      exact ih (UCT.ucbQ N C sq e) e.move hrest
    · rw [if_neg hlt, if_neg hlt]
      exact ih bv bm hrest

/-- C8, counterexample: on a node with a single edge (move 5, one visit,
mean action-value `-2·10^8`) and `C = 0`, the unique — hence maximal — UCB
score is `-2·10^8`, which does not exceed the `-100000000.0` initialisation
of `bestValue`, so `UCT::best_move` returns `MOVE_NONE` instead of the move
of the maximum-score edge. -/
theorem best_move_sentinel_counterexample :
    UCT.best_move sampleNegNode 0 (fun _ => 0) = MOVE_NONE ∧
    sampleNegNode.edges.map Edge.move = [5] ∧ (5 : Move) ≠ MOVE_NONE := by
  refine ⟨?_, rfl, by decide⟩
  have hfin : UCT.UCB 1 sampleNegEdge 0 (fun _ => 0) =
      FVal.fin (-200000000 / 1 + 0 * 0 * 0 / (1 + 1)) := by
    simp [UCT.UCB, sampleNegEdge, fdiv, FVal.addFin]
  show UCT.bestMoveGo 1 0 (fun _ => 0) sampleNegNode.edges
      (FVal.fin (-100000000)) MOVE_NONE = MOVE_NONE
  simp only [sampleNegNode, UCT.bestMoveGo, hfin, FVal.fgt, decide_eq_true_eq]
  rw [if_neg (by norm_num)]

/-- C8 (amended): `UCT::best_move` linearly scans the node's edges with a
running best value initialised to `-100000000.0`, replacing it only on
strict improvement, so ties keep the first-encountered edge; if the node has
no edges it returns `MOVE_NONE`.  When every edge has a positive visit count
(finite UCB scores) and some edge's score exceeds `-100000000.0`, it returns
the move of the lowest-index edge attaining the maximum UCB score.  (When no
score exceeds `-100000000.0` — in particular for unvisited edges, whose
scores are NaN — it returns `MOVE_NONE` even though edges exist.) -/
theorem best_move_first_max (node : UCTInfo) (C : ℚ) (sqrtFn : ℕ → ℚ) :
    (node.edges = [] → UCT.best_move node C sqrtFn = MOVE_NONE) ∧
    ((∀ e ∈ node.edges, 0 < e.visits) →
      (∃ e ∈ node.edges, -100000000 < UCT.ucbQ node.visits C sqrtFn e) →
      ∃ i : Fin node.edges.length,
        UCT.best_move node C sqrtFn = (node.edges.get i).move ∧
        (∀ j : Fin node.edges.length,
          UCT.ucbQ node.visits C sqrtFn (node.edges.get j) ≤
            UCT.ucbQ node.visits C sqrtFn (node.edges.get i)) ∧
        (∀ j : Fin node.edges.length, (j : ℕ) < (i : ℕ) →
          UCT.ucbQ node.visits C sqrtFn (node.edges.get j) <
            UCT.ucbQ node.visits C sqrtFn (node.edges.get i))) := by
  constructor
  · intro h
    simp [UCT.best_move, h, UCT.bestMoveGo]
  · intro hpos hbig
    have hb := bestMoveGo_eq_scanQ node.visits C sqrtFn node.edges
      (-100000000) MOVE_NONE hpos
    obtain ⟨i, h1, _, h3, h4⟩ := scanQ_argmax (UCT.ucbQ node.visits C sqrtFn)
      node.edges (-100000000) MOVE_NONE hbig
    refine ⟨i, ?_, h3, h4⟩
    show UCT.bestMoveGo node.visits C sqrtFn node.edges
        (FVal.fin (-100000000)) MOVE_NONE = (node.edges.get i).move
    rw [hb]
    exact h1

/-- Witness for `best_move_first_max`: on a node with two visited edges with
mean action-values 1/2 and 3/4 and `C = 0`, `best_move` picks the second
edge (move 4), the unique maximum. -/
theorem best_move_first_max_witness :
    (∀ e ∈ sampleTwoNode.edges, 0 < e.visits) ∧
    (∃ e ∈ sampleTwoNode.edges,
      -100000000 < UCT.ucbQ sampleTwoNode.visits 0 (fun _ => 1) e) ∧
    ∃ i : Fin sampleTwoNode.edges.length,
      UCT.best_move sampleTwoNode 0 (fun _ => 1) =
        (sampleTwoNode.edges.get i).move ∧
      (∀ j : Fin sampleTwoNode.edges.length,
        UCT.ucbQ sampleTwoNode.visits 0 (fun _ => 1)
            (sampleTwoNode.edges.get j) ≤
          UCT.ucbQ sampleTwoNode.visits 0 (fun _ => 1)
            (sampleTwoNode.edges.get i)) ∧
      (∀ j : Fin sampleTwoNode.edges.length, (j : ℕ) < (i : ℕ) →
        UCT.ucbQ sampleTwoNode.visits 0 (fun _ => 1)
            (sampleTwoNode.edges.get j) <
          UCT.ucbQ sampleTwoNode.visits 0 (fun _ => 1)
            (sampleTwoNode.edges.get i)) := by
  have hpos : ∀ e ∈ sampleTwoNode.edges, 0 < e.visits := by decide
  have hbig : ∃ e ∈ sampleTwoNode.edges,
      -100000000 < UCT.ucbQ sampleTwoNode.visits 0 (fun _ => 1) e := by
    refine ⟨sampleEdgeA, ?_, ?_⟩
    · simp [sampleTwoNode]
    · norm_num [UCT.ucbQ, sampleEdgeA]
  exact ⟨hpos, hbig,
    (best_move_first_max sampleTwoNode 0 (fun _ => 1)).2 hpos hbig⟩

/-- Helper: C++ truncation toward zero moves a real by strictly less than 1. -/
theorem truncToInt_close (x : ℝ) : |(UCT.truncToInt x : ℝ) - x| < 1 := by
  unfold UCT.truncToInt
  by_cases hx : 0 ≤ x
  · rw [if_pos hx, abs_lt]
    constructor
    · have := Int.sub_one_lt_floor x
      linarith
    · have := Int.floor_le x
      linarith
  · rw [if_neg hx, abs_lt]
    constructor
    · have := Int.le_ceil x
      linarith
    · have := Int.ceil_lt_add_one x
      linarith

/-- Helper: a coarse upper bound on `exp 4`. -/
theorem exp_four_lt : Real.exp 4 < 55 := by
  have h1 : Real.exp 1 < 2.7182818286 := Real.exp_one_lt_d9
  have h4 : Real.exp 4 = Real.exp 1 ^ (4 : ℕ) := by
    rw [← Real.exp_nat_mul]
    norm_num
  rw [h4]
  have hpow : Real.exp 1 ^ (4 : ℕ) < 2.7182818286 ^ (4 : ℕ) := by
    have h0 : (0 : ℝ) ≤ Real.exp 1 := le_of_lt (Real.exp_pos 1)
    exact pow_lt_pow_left h1 h0 (by norm_num)
  calc Real.exp 1 ^ (4 : ℕ) < 2.7182818286 ^ (4 : ℕ) := hpow
    _ < 55 := by norm_num

/-- C4: for every engine value `v` with `|v| ≤ 2000` — far below the
saturation sentinel — the logistic round trip
`reward_to_value (value_to_reward v)` lands back on `v` within one unit of
the value scale: the reward stays inside `[0.01, 0.99]`, so neither
saturation branch fires, and `g * log(r / (1 - r))` collapses to
`(-g·k) · v` with `-g·k = 1` up to `2.6·10⁻¹⁸`, leaving only the
truncation-to-int error. -/
theorem reward_value_round_trip (v : ℤ) (hv : |v| ≤ 2000) :
    |UCT.reward_to_value (UCT.value_to_reward v) - v| ≤ 1 := by
  have hvr : |(v : ℝ)| ≤ 2000 := by
    have : ((|v| : ℤ) : ℝ) ≤ ((2000 : ℤ) : ℝ) := by exact_mod_cast hv
    simpa [Int.cast_abs] using this
  set t := Real.exp (UCT.kLogistic * (v : ℝ)) with ht
  have htpos : 0 < t := Real.exp_pos _
  have habsk : |UCT.kLogistic| = 0.00183102048111 := by
    rw [abs_of_nonpos]
    · norm_num [UCT.kLogistic]
    · norm_num [UCT.kLogistic]
  have habs : |UCT.kLogistic * (v : ℝ)| ≤ 4 := by
    rw [abs_mul, habsk]
    calc 0.00183102048111 * |(v : ℝ)| ≤ 0.00183102048111 * 2000 := by
          have h0 : (0 : ℝ) ≤ 0.00183102048111 := by norm_num
          exact mul_le_mul_of_nonneg_left hvr h0
      _ ≤ 4 := by norm_num
  have hkv := abs_le.mp habs
  have tlow : Real.exp (-4) ≤ t := Real.exp_le_exp.mpr hkv.1
  have thigh : t ≤ Real.exp 4 := Real.exp_le_exp.mpr hkv.2
  have hexp4 : Real.exp 4 < 55 := exp_four_lt
  have texplow : (1 : ℝ) / 55 < t := by
    have hpos4 : 0 < Real.exp 4 := Real.exp_pos 4
    have : (1 : ℝ) / 55 < 1 / Real.exp 4 := by
      apply one_div_lt_one_div_of_lt hpos4 hexp4
    calc (1 : ℝ) / 55 < 1 / Real.exp 4 := this
      _ = Real.exp (-4) := by rw [Real.exp_neg]; rw [one_div]
      _ ≤ t := tlow
  have thighn : t < 55 := lt_of_le_of_lt thigh hexp4
  have h1t : (0 : ℝ) < 1 + t := by linarith
  have hr : UCT.value_to_reward v = 1 / (1 + t) := rfl
  have hrle : UCT.value_to_reward v ≤ 0.99 := by
    rw [hr, div_le_iff h1t]
    nlinarith
  have hrge : (0.01 : ℝ) ≤ UCT.value_to_reward v := by
    rw [hr, le_div_iff h1t]
    nlinarith
  have hval : UCT.reward_to_value (UCT.value_to_reward v) =
      UCT.truncToInt (UCT.gLogistic *
        Real.log (UCT.value_to_reward v / (1 - UCT.value_to_reward v))) := by
    unfold UCT.reward_to_value
    rw [if_neg (not_lt.mpr hrle), if_neg (not_lt.mpr hrge)]
  have hratio : UCT.value_to_reward v / (1 - UCT.value_to_reward v) = 1 / t := by
    rw [hr]
    have h1r : 1 - 1 / (1 + t) = t / (1 + t) := by
      field_simp
    rw [h1r]
    have ht0 : t ≠ 0 := ne_of_gt htpos
    have h1t0 : (1 + t) ≠ 0 := ne_of_gt h1t
    field_simp
  have hlogr : Real.log (UCT.value_to_reward v / (1 - UCT.value_to_reward v)) =
      -(UCT.kLogistic * (v : ℝ)) := by
    rw [hratio, one_div, Real.log_inv, ht, Real.log_exp]
  have hinner : UCT.gLogistic *
      Real.log (UCT.value_to_reward v / (1 - UCT.value_to_reward v)) =
      (-(UCT.gLogistic * UCT.kLogistic)) * (v : ℝ) := by
    rw [hlogr]
    ring
  have hc : |(-(UCT.gLogistic * UCT.kLogistic)) - 1| ≤ 0.0000000001 := by
    have hcval : (-(UCT.gLogistic * UCT.kLogistic)) - 1 =
        25014186431 / 10000000000000000000000000000 := by
      norm_num [UCT.gLogistic, UCT.kLogistic]
    rw [hcval, abs_of_nonneg (by norm_num)]
    norm_num
  have hxv : |(-(UCT.gLogistic * UCT.kLogistic)) * (v : ℝ) - (v : ℝ)| ≤
      0.0000000001 * 2000 := by
    have : (-(UCT.gLogistic * UCT.kLogistic)) * (v : ℝ) - (v : ℝ) =
        ((-(UCT.gLogistic * UCT.kLogistic)) - 1) * (v : ℝ) := by ring
    rw [this, abs_mul]
    have h0 : (0 : ℝ) ≤ |(-(UCT.gLogistic * UCT.kLogistic)) - 1| := abs_nonneg _
    calc |(-(UCT.gLogistic * UCT.kLogistic)) - 1| * |(v : ℝ)| ≤
        |(-(UCT.gLogistic * UCT.kLogistic)) - 1| * 2000 :=
          mul_le_mul_of_nonneg_left hvr h0
      _ ≤ 0.0000000001 * 2000 := by
          exact mul_le_mul_of_nonneg_right hc (by norm_num)
  have htr := truncToInt_close
    ((-(UCT.gLogistic * UCT.kLogistic)) * (v : ℝ))
  have hfinal : |((UCT.reward_to_value (UCT.value_to_reward v) : ℤ) : ℝ) -
      (v : ℝ)| < 2 := by
    rw [hval, hinner]
    calc |((UCT.truncToInt ((-(UCT.gLogistic * UCT.kLogistic)) * (v : ℝ)) : ℤ) :
          ℝ) - (v : ℝ)| ≤
        |((UCT.truncToInt ((-(UCT.gLogistic * UCT.kLogistic)) * (v : ℝ)) : ℤ) :
          ℝ) - (-(UCT.gLogistic * UCT.kLogistic)) * (v : ℝ)| +
        |(-(UCT.gLogistic * UCT.kLogistic)) * (v : ℝ) - (v : ℝ)| := by
          exact abs_sub_le _ _ _
      _ < 2 := by
          have h2 : |(-(UCT.gLogistic * UCT.kLogistic)) * (v : ℝ) - (v : ℝ)| ≤
              1 := le_trans hxv (by norm_num)
          linarith [htr]
  have hint : |UCT.reward_to_value (UCT.value_to_reward v) - v| < 2 := by
    have : ((|UCT.reward_to_value (UCT.value_to_reward v) - v| : ℤ) : ℝ) <
        ((2 : ℤ) : ℝ) := by
      push_cast
      rw [abs_sub_comm] at hfinal
      rw [abs_sub_comm]
      exact hfinal
    exact_mod_cast this
  omega

/-- Witness for `reward_value_round_trip` at `v = 0`: the reward is exactly
1/2 and the round trip returns 0. -/
theorem reward_value_round_trip_witness :
    |(0 : ℤ)| ≤ 2000 ∧ |UCT.reward_to_value (UCT.value_to_reward 0) - 0| ≤ 1 :=
  ⟨by norm_num, reward_value_round_trip 0 (by norm_num)⟩
